import Mathlib

/-!
Verification of the pinballmap name-matching core.

Shallow embedding of `clean_name`, `score_match` and `machine_by_name`
from `pinballmap/client.py` (the authoritative, self-contained copy of the
matching logic in this repository).  Strings are modelled as `List Char`
with the ASCII reading of the regular-expression character classes
(`\W`, `\s`) and of `str.lower()`; Python dictionaries are modelled as
ordered key/value association lists; operations that can raise
(`g_words[-1]` on an empty list, a missing `"cleaned_name"` key) return
`Option`.
-/

namespace PinballMap

/-- Character strings, modelled as lists of characters. -/
abbrev Str := List Char

/-- The regex word-character class `\w` (ASCII): letters, digits and the
underscore.  The complement `\W` is everything else. -/
def isWordChar (c : Char) : Bool :=
  (48 ≤ c.toNat && c.toNat ≤ 57) || (65 ≤ c.toNat && c.toNat ≤ 90) ||
    (97 ≤ c.toNat && c.toNat ≤ 122) || c.toNat == 95

/-- The regex whitespace class `\s` (ASCII), which is also the character
set stripped by `str.strip()`: space, tab, newline, vertical tab,
form feed, carriage return. -/
def isSpc (c : Char) : Bool :=
  c.toNat == 32 || (9 ≤ c.toNat && c.toNat ≤ 13)

/-- Alphanumeric characters (letters and digits, without the underscore). -/
def isAlnum (c : Char) : Bool :=
  (48 ≤ c.toNat && c.toNat ≤ 57) || (65 ≤ c.toNat && c.toNat ≤ 90) ||
    (97 ≤ c.toNat && c.toNat ≤ 122)

/-- `str.lower()` on a single character (ASCII). -/
def lowerChar (c : Char) : Char :=
  if h : 65 ≤ c.toNat ∧ c.toNat ≤ 90 then
    Char.ofNatAux (c.toNat + 32) (Or.inl (by omega))
  else c

/-- `str.lower()` on a string. -/
def lowerStr (s : Str) : Str := s.map lowerChar

/-! ## The regular-expression substitutions of `clean_name`

`punctuation_regex = re.compile(r"\W+")` with `.sub(" ", s)` replaces each
maximal run of non-word characters by one space; `punctSubAux` carries a
flag recording whether we are inside a run whose space was already
emitted.  `spaces_regex = re.compile(r"\s{2,}")` with `.sub(" ", s)`
replaces each maximal run of two or more whitespace characters by one
space, leaving isolated whitespace characters unchanged; `collapseAux`
is the corresponding three-state automaton. -/

/-- `punctuation_regex.sub(" ", s)`: the flag is true while inside a
non-word run whose replacement space has already been emitted. -/
def punctSubAux : Bool → Str → Str
  | _, [] => []
  | inRun, c :: cs =>
    if isWordChar c then c :: punctSubAux false cs
    else if inRun then punctSubAux true cs
    else ' ' :: punctSubAux true cs

/-- `punctuation_regex.sub(" ", s)`. -/
def punctSub (s : Str) : Str := punctSubAux false s

/-- State of the `\s{2,}` substitution automaton: `norm` outside any
whitespace, `held h` after a single not-yet-emitted whitespace `h`,
`skp` while skipping the tail of a collapsed run. -/
inductive CState where
  | norm : CState
  | held : Char → CState
  | skp : CState

/-- `spaces_regex.sub(" ", s)` as a state machine. -/
def collapseAux : CState → Str → Str
  | .norm, [] => []
  | .held h, [] => [h]
  | .skp, [] => []
  | .norm, c :: cs =>
    if isSpc c then collapseAux (.held c) cs else c :: collapseAux .norm cs
  | .held h, c :: cs =>
    if isSpc c then ' ' :: collapseAux .skp cs else h :: c :: collapseAux .norm cs
  | .skp, c :: cs =>
    if isSpc c then collapseAux .skp cs else c :: collapseAux .norm cs

/-- `spaces_regex.sub(" ", s)`. -/
def collapseSpaces (s : Str) : Str := collapseAux .norm s

/-- `str.strip()`: remove leading and trailing whitespace. -/
def stripChars (s : Str) : Str :=
  ((s.dropWhile isSpc).reverse.dropWhile isSpc).reverse

/-- One pass of `re.sub(r"\b" + word + r"\b", " ", s)` for a word made of
word characters: every maximal word-character run equal to `w` is
replaced by a single space (`acc` is the word run currently being
read). -/
def removeWordAux (w : Str) : Str → Str → Str
  | acc, [] => if acc = w then [' '] else acc
  | acc, c :: cs =>
    if isWordChar c then removeWordAux w (acc ++ [c]) cs
    else (if acc = w then [' '] else acc) ++ c :: removeWordAux w [] cs

/-- `re.sub(r"\b" + word + r"\b", " ", s)`. -/
def removeWord (w : Str) (s : Str) : Str := removeWordAux w [] s

/-- `STRIP_WORDS = ("the", "and", "for", "with", "a", "of")` from
`client.py`. -/
def STRIP_WORDS : List Str :=
  ["the".toList, "and".toList, "for".toList, "with".toList, "a".toList, "of".toList]

/-- The `for word in STRIP_WORDS: s = re.sub(...)` loop of `clean_name`. -/
def removeStopWords (s : Str) : Str :=
  STRIP_WORDS.foldl (fun t w => removeWord w t) s

/-- The main cleaning path of `clean_name` (steps before the emptiness
fallback): punctuation substitution, lowering, stop-word removal,
whitespace collapsing, stripping. -/
def cleanMain (s : Str) : Str :=
  stripChars (collapseSpaces (removeStopWords (lowerStr (punctSub s))))

/-- The fallback branch of `clean_name`: `original.lower()` followed by
`spaces_regex.sub(" ", ...).strip()` — note that no punctuation
substitution or stop-word removal happens here. -/
def cleanFallback (s : Str) : Str :=
  stripChars (collapseSpaces (lowerStr s))

/-- `clean_name` from `client.py`. -/
def clean_name (s : Str) : Str :=
  if cleanMain s = [] then cleanFallback s else cleanMain s

/-- The maximal word-character runs of a string (helper for reasoning
about the word-boundary substitutions; not itself part of the code). -/
def wordRunsAux : Str → Str → List Str
  | acc, [] => if acc = [] then [] else [acc]
  | acc, c :: cs =>
    if isWordChar c then wordRunsAux (acc ++ [c]) cs
    else if acc = [] then wordRunsAux [] cs else acc :: wordRunsAux [] cs

/-- The maximal word-character runs of a string. -/
def wordRuns (s : Str) : List Str := wordRunsAux [] s

/-- `str.split()` with no arguments: the maximal non-whitespace runs. -/
def splitWsAux : Str → Str → List Str
  | acc, [] => if acc = [] then [] else [acc]
  | acc, c :: cs =>
    if isSpc c then
      if acc = [] then splitWsAux [] cs else acc :: splitWsAux [] cs
    else splitWsAux (acc ++ [c]) cs

/-- `str.split()` with no arguments. -/
def splitWs (s : Str) : List Str := splitWsAux [] s

/-! ## `score_match` and `machine_by_name`

Python dictionaries are modelled as ordered association lists from string
keys to values (`Val`); dictionary access returns `Option` (a missing key
is a `KeyError`), and `g_words[-1]` on an empty list (an `IndexError`)
makes `score_match` return `none`. -/

/-- A Python value stored in a machine-data dictionary. -/
inductive Val where
  | str : Str → Val
  | int : Int → Val
deriving DecidableEq

/-- A Python dictionary: an ordered association list with (by the dict
invariant) unique keys. -/
abbrev Dict := List (Str × Val)

/-- `d[k]` (`none` models a `KeyError`). -/
def dictGet (d : Dict) (k : Str) : Option Val :=
  match d with
  | [] => none
  | (k', v) :: d' => if k' = k then some v else dictGet d' k

/-- The `"cleaned_name"` key. -/
def cleanedKey : Str := "cleaned_name".toList

/-- `machine_data["cleaned_name"]` as a string (`none` models a
`KeyError`, or the unsupported case of a non-string value). -/
def getCleaned (d : Dict) : Option Str :=
  match dictGet d cleanedKey with
  | some (Val.str v) => some v
  | _ => none

/-- `data.copy()` followed by `del data["cleaned_name"]`: the
`"cleaned_name"` entry is removed and every other entry is kept
unchanged, in order. -/
def delCleaned (d : Dict) : Dict :=
  d.filter (fun kv => decide (kv.1 ≠ cleanedKey))

/-- `MODEL_ENDINGS = ("le", "pro", "premium", "edition" "standard")` from
`client.py` — verbatim, including the implicit string concatenation of
the last two elements: the tuple has four elements and its last element
is the single string `"editionstandard"`. -/
def MODEL_ENDINGS : List Str :=
  ["le".toList, "pro".toList, "premium".toList, "editionstandard".toList]

/-- `needle` occurs at the start of the second argument. -/
def startsWith : Str → Str → Bool
  | [], _ => true
  | _ :: _, [] => false
  | a :: as, b :: bs => a == b && startsWith as bs

/-- Python's `needle in haystack` for strings: contiguous substring
containment (the empty needle is contained in everything). -/
def substrOf (needle : Str) : Str → Bool
  | [] => decide (needle = [])
  | c :: cs => startsWith needle (c :: cs) || substrOf needle cs

/-- `score_match` from `client.py`.  Returns `none` when the
`"cleaned_name"` access fails or when the cleaned name splits into no
words (the `g_words[-1]` `IndexError`). -/
def score_match (query_string : Str) (machine_data : Dict)
    (query_words : List Str) : Option Int :=
  match getCleaned machine_data with
  | none => none
  | some cleaned =>
    if query_string = cleaned then some 150
    else
      let score0 : Int := if substrOf query_string cleaned then 2 else 0
      let g_words := splitWs cleaned
      match g_words.getLast? with
      | none => none
      | some last_word =>
        let score1 : Int :=
          if last_word ∈ MODEL_ENDINGS then score0 - 2 else score0
        some (query_words.foldl (fun sc qw =>
          if qw = last_word then sc
          else if qw ∈ g_words then
            (if 3 ≤ qw.length then sc + (5 + 2 * (qw.length : Int)) else sc + 1)
          else sc) score1)

/-- Stable descending insertion by score: the new element goes in front
of the first element whose score is not larger (so earlier elements win
ties). -/
def insertDesc (p : Dict × Int) : List (Dict × Int) → List (Dict × Int)
  | [] => [p]
  | q :: qs => if q.2 ≤ p.2 then p :: q :: qs else q :: insertDesc p qs

/-- `sorted(results, key=itemgetter(1), reverse=True)`: stable sort by
score, descending (CPython's sort is stable and `reverse=True` keeps
ties in original order). -/
def sortDesc (l : List (Dict × Int)) : List (Dict × Int) :=
  l.foldr insertDesc []

/-- The scoring loop of `machine_by_name`: score every catalog entry in
order, keep those with `score >= min_score` as
`(copy-without-cleaned_name, score)` pairs, aborting on the first
scoring error. -/
def scoreKeep (qs : Str) (qws : List Str) (min_score : Int) :
    List Dict → Option (List (Dict × Int))
  | [] => some []
  | g :: gs =>
    match score_match qs g qws with
    | none => none
    | some sc =>
      match scoreKeep qs qws min_score gs with
      | none => none
      | some rest =>
        if min_score ≤ sc then some ((delCleaned g, sc) :: rest) else some rest

/-- `machine_by_name` from `client.py` with `include_score=True`: clean
the query, score and filter the catalog, sort by score descending
(stable), and truncate to the first four entries when some kept item
scored at least 150. -/
def machine_by_name_scored (catalog : List Dict) (query_string : Str)
    (min_score : Int) : Option (List (Dict × Int)) :=
  match scoreKeep (clean_name query_string) (splitWs (clean_name query_string))
      min_score catalog with
  | none => none
  | some results =>
    some (if results.any (fun p => decide (150 ≤ p.2)) then
      (sortDesc results).take 4
    else sortDesc results)

/-- `machine_by_name` with the default `include_score=False`. -/
def machine_by_name (catalog : List Dict) (query_string : Str)
    (min_score : Int) : Option (List Dict) :=
  (machine_by_name_scored catalog query_string min_score).map (List.map Prod.fst)

/-- Modelled from the spec: the fallback recomputation as §4.1 step 4
words it — "recompute using only steps 1 and 3 applied to the original
input lowered", i.e. punctuation replacement and lowercasing followed by
whitespace collapsing and trimming.  The code's actual fallback
(`cleanFallback`) skips the punctuation replacement; this definition
exists to be compared against it. -/
def cleanFallbackSpec (s : Str) : Str :=
  stripChars (collapseSpaces (lowerStr (punctSub s)))

/-! ## Scoring theorems -/

/-- Step 4 of the scoring algorithm as a per-word contribution: a query
word equal to the item's last word contributes nothing; otherwise a word
occurring among the item's words contributes `5 + 2*len` when its length
is at least 3 and `1` when shorter; other words contribute nothing. -/
def wordBonus (g_words : List Str) (last_word : Str) (qw : Str) : Int :=
  if qw = last_word then 0
  else if qw ∈ g_words then (if 3 ≤ qw.length then 5 + 2 * (qw.length : Int) else 1)
  else 0

/-- Every character is a word character or a plain space. -/
def WordOrSpace (l : Str) : Prop := ∀ c ∈ l, isWordChar c = true ∨ c = ' '

/-- Every character is fixed by lowercasing. -/
def AllLower (l : Str) : Prop := ∀ c ∈ l, lowerChar c = c

/-- No two adjacent whitespace characters. -/
def NoDoubleWs (l : Str) : Prop :=
  List.Chain' (fun a b => isSpc a = false ∨ isSpc b = false) l

/-- Neither the first nor the last character is whitespace. -/
def NoEdgeWs (l : Str) : Prop :=
  (∀ c, l.head? = some c → isSpc c = false) ∧
  (∀ c, l.getLast? = some c → isSpc c = false)

/-- The not-yet-emitted input a collapse state stands for. -/
def pendingCS : CState → Str
  | .norm => []
  | .held h => [h]
  | .skp => []

/-- A small example catalog used by the witnesses below. -/
def exCatalog : List Dict :=
  [ [("name".toList, Val.str "Medieval Madness".toList),
     (cleanedKey, Val.str "medieval madness".toList), ("id".toList, Val.int 1)],
    [("name".toList, Val.str "Medieval Castle".toList),
     (cleanedKey, Val.str "medieval castle".toList), ("id".toList, Val.int 2)],
    [("name".toList, Val.str "Medieval Knights".toList),
     (cleanedKey, Val.str "medieval knights".toList), ("id".toList, Val.int 3)],
    [("name".toList, Val.str "Madness House".toList),
     (cleanedKey, Val.str "madness house".toList), ("id".toList, Val.int 4)],
    [("name".toList, Val.str "Royal Madness".toList),
     (cleanedKey, Val.str "royal madness".toList), ("id".toList, Val.int 5)],
    [("name".toList, Val.str "Madness Medieval".toList),
     (cleanedKey, Val.str "madness medieval".toList), ("id".toList, Val.int 6)] ]

/-- The example query used by the witnesses below. -/
def exQuery : Str := "Medieval Madness".toList

/-- The kept (scored and filtered) list for the example catalog. -/
def exKept : List (Dict × Int) :=
  (scoreKeep (clean_name exQuery) (splitWs (clean_name exQuery)) 2 exCatalog).getD []

/-- The final output list for the example catalog. -/
def exOut : List (Dict × Int) :=
  (machine_by_name_scored exCatalog exQuery 2).getD []

/-! ## Theorems -/

theorem isWordChar_iff (c : Char) : isWordChar c = true ↔
    ((48 ≤ c.toNat ∧ c.toNat ≤ 57) ∨ (65 ≤ c.toNat ∧ c.toNat ≤ 90) ∨
     (97 ≤ c.toNat ∧ c.toNat ≤ 122) ∨ c.toNat = 95) := by
  unfold isWordChar
  simp only [Bool.or_eq_true, Bool.and_eq_true, decide_eq_true_eq, beq_iff_eq]
  tauto

theorem isSpc_iff (c : Char) : isSpc c = true ↔
    (c.toNat = 32 ∨ (9 ≤ c.toNat ∧ c.toNat ≤ 13)) := by
  unfold isSpc
  simp only [Bool.or_eq_true, Bool.and_eq_true, decide_eq_true_eq, beq_iff_eq]

theorem isAlnum_iff (c : Char) : isAlnum c = true ↔
    ((48 ≤ c.toNat ∧ c.toNat ≤ 57) ∨ (65 ≤ c.toNat ∧ c.toNat ≤ 90) ∨
     (97 ≤ c.toNat ∧ c.toNat ≤ 122)) := by
  unfold isAlnum
  simp only [Bool.or_eq_true, Bool.and_eq_true, decide_eq_true_eq]
  tauto

theorem toNat_lowerChar (c : Char) :
    (lowerChar c).toNat =
      if 65 ≤ c.toNat ∧ c.toNat ≤ 90 then c.toNat + 32 else c.toNat := by
  unfold lowerChar
  by_cases h : 65 ≤ c.toNat ∧ c.toNat ≤ 90
  · rw [dif_pos h, if_pos h]; rfl
  · rw [dif_neg h, if_neg h]

theorem lowerChar_eq_self (c : Char) (h : ¬(65 ≤ c.toNat ∧ c.toNat ≤ 90)) :
    lowerChar c = c := by
  unfold lowerChar; rw [dif_neg h]

theorem lowerChar_lowerChar (c : Char) : lowerChar (lowerChar c) = lowerChar c := by
  apply lowerChar_eq_self
  rw [toNat_lowerChar]
  by_cases h : 65 ≤ c.toNat ∧ c.toNat ≤ 90
  · rw [if_pos h]; omega
  · rw [if_neg h]; omega

theorem isWordChar_lowerChar (c : Char) : isWordChar (lowerChar c) = isWordChar c := by
  have h := toNat_lowerChar c
  rw [Bool.eq_iff_iff, isWordChar_iff, isWordChar_iff, h]
  by_cases hc : 65 ≤ c.toNat ∧ c.toNat ≤ 90
  · rw [if_pos hc]; omega
  · rw [if_neg hc]

theorem isSpc_lowerChar (c : Char) : isSpc (lowerChar c) = isSpc c := by
  have h := toNat_lowerChar c
  rw [Bool.eq_iff_iff, isSpc_iff, isSpc_iff, h]
  by_cases hc : 65 ≤ c.toNat ∧ c.toNat ≤ 90
  · rw [if_pos hc]; omega
  · rw [if_neg hc]

theorem isAlnum_lowerChar (c : Char) : isAlnum (lowerChar c) = isAlnum c := by
  have h := toNat_lowerChar c
  rw [Bool.eq_iff_iff, isAlnum_iff, isAlnum_iff, h]
  by_cases hc : 65 ≤ c.toNat ∧ c.toNat ≤ 90
  · rw [if_pos hc]; omega
  · rw [if_neg hc]

theorem not_isSpc_of_isWordChar {c : Char} (h : isWordChar c = true) :
    isSpc c = false := by
  rw [isWordChar_iff] at h
  rw [Bool.eq_false_iff, Ne, isSpc_iff]
  omega

theorem not_isSpc_of_isAlnum {c : Char} (h : isAlnum c = true) :
    isSpc c = false := by
  rw [isAlnum_iff] at h
  rw [Bool.eq_false_iff, Ne, isSpc_iff]
  omega

theorem isWordChar_of_isAlnum {c : Char} (h : isAlnum c = true) :
    isWordChar c = true := by
  rw [isAlnum_iff] at h
  rw [isWordChar_iff]
  omega

theorem isSpc_space : isSpc ' ' = true := by decide

theorem isWordChar_space : isWordChar ' ' = false := by decide

theorem lowerChar_space : lowerChar ' ' = ' ' := by decide

theorem foldl_score_eq (g_words : List Str) (last_word : Str) (qws : List Str) :
    ∀ acc : Int,
      qws.foldl (fun sc qw =>
        if qw = last_word then sc
        else if qw ∈ g_words then
          (if 3 ≤ qw.length then sc + (5 + 2 * (qw.length : Int)) else sc + 1)
        else sc) acc
      = acc + (qws.map (wordBonus g_words last_word)).sum := by
  induction qws with
  | nil => intro acc; simp
  | cons qw qws ih =>
    intro acc
    simp only [List.foldl_cons, List.map_cons, List.sum_cons]
    rw [ih]
    unfold wordBonus
    by_cases h1 : qw = last_word
    · rw [if_pos h1, if_pos h1]; ring
    · rw [if_neg h1, if_neg h1]
      by_cases h2 : qw ∈ g_words
      · rw [if_pos h2, if_pos h2]
        by_cases h3 : 3 ≤ qw.length
        · rw [if_pos h3, if_pos h3]; ring
        · rw [if_neg h3, if_neg h3]; ring
      · rw [if_neg h2, if_neg h2]; ring

/-- C1: when the canonical query equals the item's `"cleaned_name"`
exactly, `score_match` returns 150 at once, for every query and every
item, with none of the later scoring steps evaluated. -/
theorem score_match_exact (q : Str) (m : Dict) (qws : List Str)
    (h : getCleaned m = some q) : score_match q m qws = some 150 := by
  unfold score_match
  rw [h]
  simp

theorem score_match_exact_witness :
    getCleaned [(cleanedKey, Val.str "medieval madness".toList),
        ("id".toList, Val.int 4852)] = some "medieval madness".toList ∧
    score_match "medieval madness".toList
      [(cleanedKey, Val.str "medieval madness".toList), ("id".toList, Val.int 4852)]
      ["medieval".toList, "madness".toList] = some 150 :=
  ⟨by decide, score_match_exact "medieval madness".toList
    [(cleanedKey, Val.str "medieval madness".toList), ("id".toList, Val.int 4852)]
    ["medieval".toList, "madness".toList] (by decide)⟩

/-- C2: evaluation of the code at the failing inputs.  `MODEL_ENDINGS`
in `client.py` is the four-element tuple
`("le", "pro", "premium", "editionstandard")` because of the missing
comma, so an item whose cleaned name ends in `"edition"` or in
`"standard"` does **not** receive the −2 suffix penalty (the score below
is 2 for the substring bonus plus 1 for the short word, with no −2),
while an item ending in `"le"` does (2 + 1 − 2). -/
theorem score_match_editionstandard_quirk :
    score_match "zz".toList [(cleanedKey, Val.str "zz edition".toList)]
        ["zz".toList] = some 3 ∧
    score_match "zz".toList [(cleanedKey, Val.str "zz standard".toList)]
        ["zz".toList] = some 3 ∧
    score_match "zz".toList [(cleanedKey, Val.str "zz le".toList)]
        ["zz".toList] = some 1 ∧
    "edition".toList ∉ MODEL_ENDINGS ∧ "standard".toList ∉ MODEL_ENDINGS ∧
    "editionstandard".toList ∈ MODEL_ENDINGS := by
  refine ⟨by decide, by decide, by decide, by decide, by decide, by decide⟩

/-- C7: in the non-exact case, `score_match` is the substring bonus plus
the last-word suffix penalty plus the sum of the per-word bonuses of
`wordBonus`, taken over the query words in order. -/
theorem score_match_word_bonuses (q : Str) (m : Dict) (qws : List Str)
    (cn : Str) (hcn : getCleaned m = some cn) (hne : q ≠ cn)
    (lw : Str) (hlw : (splitWs cn).getLast? = some lw) :
    score_match q m qws =
      some ((if substrOf q cn then (2:Int) else 0)
        + (if lw ∈ MODEL_ENDINGS then (-2:Int) else 0)
        + (qws.map (wordBonus (splitWs cn) lw)).sum) := by
  unfold score_match
  rw [hcn]
  simp only [hlw]
  rw [if_neg hne]
  rw [foldl_score_eq]
  congr 1
  by_cases hm : lw ∈ MODEL_ENDINGS
  · rw [if_pos hm, if_pos hm]
    ring
  · rw [if_neg hm, if_neg hm]
    ring

theorem score_match_word_bonuses_witness :
    getCleaned [(cleanedKey, Val.str "fish tales le".toList)] =
        some "fish tales le".toList ∧
    "fish tales".toList ≠ "fish tales le".toList ∧
    (splitWs "fish tales le".toList).getLast? = some "le".toList ∧
    score_match "fish tales".toList [(cleanedKey, Val.str "fish tales le".toList)]
        ["fish".toList, "tales".toList] =
      some ((if substrOf "fish tales".toList "fish tales le".toList then (2:Int) else 0)
        + (if "le".toList ∈ MODEL_ENDINGS then (-2:Int) else 0)
        + ((["fish".toList, "tales".toList]).map
            (wordBonus (splitWs "fish tales le".toList) "le".toList)).sum) :=
  ⟨by decide, by decide, by decide,
    score_match_word_bonuses "fish tales".toList
      [(cleanedKey, Val.str "fish tales le".toList)]
      ["fish".toList, "tales".toList] "fish tales le".toList (by decide) (by decide)
      "le".toList (by decide)⟩

/-! ## Sorting and `machine_by_name` theorems -/

theorem mem_insertDesc (p q : Dict × Int) (l : List (Dict × Int)) :
    q ∈ insertDesc p l ↔ q = p ∨ q ∈ l := by
  induction l with
  | nil => simp [insertDesc]
  | cons r rs ih =>
    unfold insertDesc
    by_cases h : r.2 ≤ p.2
    · rw [if_pos h]
      simp [List.mem_cons]
    · rw [if_neg h]
      simp only [List.mem_cons, ih]
      tauto

theorem insertDesc_sorted (p : Dict × Int) (l : List (Dict × Int))
    (h : l.Pairwise (fun a b => b.2 ≤ a.2)) :
    (insertDesc p l).Pairwise (fun a b => b.2 ≤ a.2) := by
  induction l with
  | nil => simp [insertDesc]
  | cons r rs ih =>
    rw [List.pairwise_cons] at h
    obtain ⟨hr, hrs⟩ := h
    unfold insertDesc
    by_cases hc : r.2 ≤ p.2
    · rw [if_pos hc, List.pairwise_cons]
      refine ⟨?_, ?_⟩
      · intro y hy
        rcases List.mem_cons.mp hy with rfl | hy'
        · exact hc
        · exact le_trans (hr y hy') hc
      · rw [List.pairwise_cons]; exact ⟨hr, hrs⟩
    · rw [if_neg hc, List.pairwise_cons]
      refine ⟨?_, ih hrs⟩
      intro y hy
      rcases (mem_insertDesc p y rs).mp hy with rfl | hy'
      · omega
      · exact hr y hy'

theorem sortDesc_sorted (l : List (Dict × Int)) :
    (sortDesc l).Pairwise (fun a b => b.2 ≤ a.2) := by
  induction l with
  | nil => simp [sortDesc]
  | cons p ps ih => exact insertDesc_sorted p (sortDesc ps) ih

theorem filter_insertDesc (x : Dict × Int) (l : List (Dict × Int)) (s : Int) :
    (insertDesc x l).filter (fun p => decide (p.2 = s)) =
      if x.2 = s then x :: l.filter (fun p => decide (p.2 = s))
      else l.filter (fun p => decide (p.2 = s)) := by
  induction l with
  | nil =>
    by_cases h : x.2 = s
    · rw [if_pos h]; simp [insertDesc, h]
    · rw [if_neg h]; simp [insertDesc, h]
  | cons r rs ih =>
    unfold insertDesc
    by_cases hc : r.2 ≤ x.2
    · rw [if_pos hc]
      by_cases hx : x.2 = s
      · rw [if_pos hx]; simp [List.filter_cons, hx]
      · rw [if_neg hx]; simp [List.filter_cons, hx]
    · rw [if_neg hc]
      by_cases hr : r.2 = s
      · have hx : ¬ x.2 = s := by omega
        simp [List.filter_cons, ih, hr, hx]
      · by_cases hx : x.2 = s
        · simp [List.filter_cons, ih, hr, hx]
        · simp [List.filter_cons, ih, hr, hx]

theorem sortDesc_filter (l : List (Dict × Int)) (s : Int) :
    (sortDesc l).filter (fun p => decide (p.2 = s)) =
      l.filter (fun p => decide (p.2 = s)) := by
  induction l with
  | nil => simp [sortDesc]
  | cons p ps ih =>
    have h : sortDesc (p :: ps) = insertDesc p (sortDesc ps) := rfl
    rw [h, filter_insertDesc, List.filter_cons]
    by_cases hp : p.2 = s
    · rw [if_pos hp, ih]
      simp [hp]
    · rw [if_neg hp, ih]
      simp [hp]

theorem take_filter {α : Type} (p : α → Bool) :
    ∀ (l : List α) (n : Nat), ∃ m, (l.take n).filter p = (l.filter p).take m := by
  intro l
  induction l with
  | nil => intro n; exact ⟨0, by simp⟩
  | cons c cs ih =>
    intro n
    cases n with
    | zero => exact ⟨0, by simp⟩
    | succ n =>
      obtain ⟨m, hm⟩ := ih n
      by_cases hc : p c = true
      · exact ⟨m + 1, by simp [List.take_succ_cons, List.filter_cons, hc, hm]⟩
      · refine ⟨m, ?_⟩
        simp only [List.take_succ_cons, List.filter_cons, hc]
        simpa [hc] using hm

theorem insertDesc_length (p : Dict × Int) (l : List (Dict × Int)) :
    (insertDesc p l).length = l.length + 1 := by
  induction l with
  | nil => rfl
  | cons r rs ih =>
    unfold insertDesc
    by_cases h : r.2 ≤ p.2
    · rw [if_pos h]; rfl
    · rw [if_neg h]
      simp [ih]

theorem sortDesc_length (l : List (Dict × Int)) :
    (sortDesc l).length = l.length := by
  induction l with
  | nil => rfl
  | cons p ps ih =>
    have h : sortDesc (p :: ps) = insertDesc p (sortDesc ps) := rfl
    rw [h, insertDesc_length, ih]
    rfl

theorem mem_sortDesc (q : Dict × Int) (l : List (Dict × Int)) :
    q ∈ sortDesc l ↔ q ∈ l := by
  induction l with
  | nil => simp [sortDesc]
  | cons p ps ih =>
    have h : sortDesc (p :: ps) = insertDesc p (sortDesc ps) := rfl
    rw [h, mem_insertDesc, ih, List.mem_cons]

theorem scoreKeep_mem (qs : Str) (qws : List Str) (ms : Int) :
    ∀ (catalog : List Dict) (kept : List (Dict × Int)),
      scoreKeep qs qws ms catalog = some kept →
      ∀ p ∈ kept, ∃ g ∈ catalog,
        score_match qs g qws = some p.2 ∧ ms ≤ p.2 ∧ p.1 = delCleaned g := by
  intro catalog
  induction catalog with
  | nil =>
    intro kept h p hp
    simp only [scoreKeep, Option.some.injEq] at h
    subst h
    simp at hp
  | cons g gs ih =>
    intro kept h p hp
    unfold scoreKeep at h
    cases hsc : score_match qs g qws with
    | none => rw [hsc] at h; simp at h
    | some sc =>
      rw [hsc] at h
      cases hrest : scoreKeep qs qws ms gs with
      | none => rw [hrest] at h; simp at h
      | some rest =>
        rw [hrest] at h
        have h2 : (if ms ≤ sc then some ((delCleaned g, sc) :: rest)
            else some rest) = some kept := h
        by_cases hms : ms ≤ sc
        · rw [if_pos hms, Option.some.injEq] at h2
          subst h2
          rcases List.mem_cons.mp hp with rfl | hp2
          · exact ⟨g, List.mem_cons_self g gs, hsc, hms, rfl⟩
          · obtain ⟨g2, hg2, e1, e2, e3⟩ := ih rest hrest p hp2
            exact ⟨g2, List.mem_cons_of_mem g hg2, e1, e2, e3⟩
        · rw [if_neg hms, Option.some.injEq] at h2
          subst h2
          obtain ⟨g2, hg2, e1, e2, e3⟩ := ih rest hrest p hp
          exact ⟨g2, List.mem_cons_of_mem g hg2, e1, e2, e3⟩

/-- C8: the output of `machine_by_name` is sorted by score in descending
order, and stably so: for every score value, the output items carrying
that score are an initial segment of the kept items carrying that score
in catalog order. -/
theorem machine_by_name_sorted_stable (catalog : List Dict) (q : Str) (ms : Int)
    (out kept : List (Dict × Int))
    (hkept : scoreKeep (clean_name q) (splitWs (clean_name q)) ms catalog = some kept)
    (hout : machine_by_name_scored catalog q ms = some out) :
    out.Pairwise (fun a b => b.2 ≤ a.2) ∧
    ∀ s : Int, ∃ n, out.filter (fun p => decide (p.2 = s)) =
      (kept.filter (fun p => decide (p.2 = s))).take n := by
  unfold machine_by_name_scored at hout
  rw [hkept] at hout
  have hout2 : some (if kept.any (fun p => decide (150 ≤ p.2)) then
      (sortDesc kept).take 4 else sortDesc kept) = some out := hout
  rw [Option.some.injEq] at hout2
  by_cases hb : kept.any (fun p => decide (150 ≤ p.2)) = true
  · rw [if_pos hb] at hout2
    subst hout2
    constructor
    · exact List.Pairwise.sublist (List.take_sublist 4 (sortDesc kept))
        (sortDesc_sorted kept)
    · intro s
      obtain ⟨m, hm⟩ := take_filter (fun p => decide (p.2 = s)) (sortDesc kept) 4
      exact ⟨m, by rw [hm, sortDesc_filter]⟩
  · rw [if_neg hb] at hout2
    subst hout2
    constructor
    · exact sortDesc_sorted kept
    · intro s
      refine ⟨(kept.filter (fun p => decide (p.2 = s))).length, ?_⟩
      rw [sortDesc_filter, List.take_length]

/-- C9: if some kept item scored at least 150, the output has at most
four entries; if none did, no truncation happens and the output has
exactly as many entries as were kept. -/
theorem machine_by_name_truncates (catalog : List Dict) (q : Str) (ms : Int)
    (out kept : List (Dict × Int))
    (hkept : scoreKeep (clean_name q) (splitWs (clean_name q)) ms catalog = some kept)
    (hout : machine_by_name_scored catalog q ms = some out) :
    (kept.any (fun p => decide (150 ≤ p.2)) = true → out.length ≤ 4) ∧
    (kept.any (fun p => decide (150 ≤ p.2)) = false → out.length = kept.length) := by
  unfold machine_by_name_scored at hout
  rw [hkept] at hout
  have hout2 : some (if kept.any (fun p => decide (150 ≤ p.2)) then
      (sortDesc kept).take 4 else sortDesc kept) = some out := hout
  rw [Option.some.injEq] at hout2
  constructor
  · intro hb
    rw [if_pos hb] at hout2
    subst hout2
    rw [List.length_take]
    exact min_le_left 4 (sortDesc kept).length
  · intro hb
    rw [hb] at hout2
    simp only [Bool.false_eq_true, if_false] at hout2
    subst hout2
    exact sortDesc_length kept

/-- C10: every item returned by `machine_by_name` is the copy of a
catalog entry with exactly its `"cleaned_name"` entry removed and every
other key/value pair kept unchanged in order, paired with that entry's
score; the catalog itself is only read. -/
theorem machine_by_name_copies (catalog : List Dict) (q : Str) (ms : Int)
    (out : List (Dict × Int))
    (hout : machine_by_name_scored catalog q ms = some out) :
    ∀ p ∈ out, ∃ g ∈ catalog,
      score_match (clean_name q) g (splitWs (clean_name q)) = some p.2 ∧
      ms ≤ p.2 ∧ p.1 = delCleaned g := by
  intro p hp
  unfold machine_by_name_scored at hout
  cases hkept : scoreKeep (clean_name q) (splitWs (clean_name q)) ms catalog with
  | none => rw [hkept] at hout; simp at hout
  | some kept =>
    rw [hkept] at hout
    have hout2 : some (if kept.any (fun p => decide (150 ≤ p.2)) then
        (sortDesc kept).take 4 else sortDesc kept) = some out := hout
    rw [Option.some.injEq] at hout2
    have hpk : p ∈ kept := by
      by_cases hb : kept.any (fun p => decide (150 ≤ p.2)) = true
      · rw [if_pos hb] at hout2
        subst hout2
        exact (mem_sortDesc p kept).mp ((List.take_sublist 4 (sortDesc kept)).subset hp)
      · rw [if_neg hb] at hout2
        subst hout2
        exact (mem_sortDesc p kept).mp hp
    exact scoreKeep_mem (clean_name q) (splitWs (clean_name q)) ms catalog kept hkept p hpk

theorem machine_by_name_sorted_stable_witness :
    exOut.Pairwise (fun a b => b.2 ≤ a.2) ∧
    (∃ n, exOut.filter (fun p => decide (p.2 = 21)) =
      (exKept.filter (fun p => decide (p.2 = 21))).take n) :=
  have h := machine_by_name_sorted_stable exCatalog exQuery 2 exOut exKept
    (by decide) (by decide)
  ⟨h.1, h.2 21⟩

theorem machine_by_name_truncates_witness :
    exKept.any (fun p => decide (150 ≤ p.2)) = true ∧ exOut.length ≤ 4 :=
  ⟨by decide,
    (machine_by_name_truncates exCatalog exQuery 2 exOut exKept
      (by decide) (by decide)).1 (by decide)⟩

theorem machine_by_name_copies_witness :
    ∃ g ∈ exCatalog,
      score_match (clean_name exQuery) g (splitWs (clean_name exQuery)) =
        some (exOut.getD 0 ([], 0)).2 ∧
      (2:Int) ≤ (exOut.getD 0 ([], 0)).2 ∧
      (exOut.getD 0 ([], 0)).1 = delCleaned g :=
  machine_by_name_copies exCatalog exQuery 2 exOut (by decide)
    (exOut.getD 0 ([], 0)) (by decide)

/-! ## Invariants of cleaned strings -/

theorem ne_true_of_false {b : Bool} (h : b = false) : ¬(b = true) := by simp [h]

/-! ### punctSub lemmas -/

theorem punctSubAux_wordOrSpace (l : Str) :
    ∀ b, WordOrSpace (punctSubAux b l) := by
  induction l with
  | nil => intro b c hc; simp [punctSubAux] at hc
  | cons d ds ih =>
    intro b c hc
    unfold punctSubAux at hc
    rcases Bool.eq_false_or_eq_true (isWordChar d) with hw | hw
    · rw [if_pos hw] at hc
      rcases List.mem_cons.mp hc with rfl | hc2
      · exact Or.inl hw
      · exact ih false c hc2
    · rw [if_neg (ne_true_of_false hw)] at hc
      rcases Bool.eq_false_or_eq_true b with hb | hb
      · rw [hb, if_pos rfl] at hc
        exact ih true c hc
      · rw [hb, if_neg (ne_true_of_false rfl)] at hc
        rcases List.mem_cons.mp hc with rfl | hc2
        · exact Or.inr rfl
        · exact ih true c hc2

theorem punctSubAux_true_head (l : Str) :
    ∀ c, (punctSubAux true l).head? = some c → isWordChar c = true := by
  induction l with
  | nil => intro c hc; simp [punctSubAux] at hc
  | cons d ds ih =>
    intro c hc
    unfold punctSubAux at hc
    rcases Bool.eq_false_or_eq_true (isWordChar d) with hw | hw
    · rw [if_pos hw] at hc
      simp only [List.head?_cons, Option.some.injEq] at hc
      subst hc
      exact hw
    · rw [if_neg (ne_true_of_false hw), if_pos rfl] at hc
      exact ih c hc

theorem punctSubAux_noDouble (l : Str) : ∀ b, NoDoubleWs (punctSubAux b l) := by
  induction l with
  | nil => intro b; simp [punctSubAux, NoDoubleWs]
  | cons d ds ih =>
    intro b
    unfold punctSubAux
    rcases Bool.eq_false_or_eq_true (isWordChar d) with hw | hw
    · rw [if_pos hw]
      rw [NoDoubleWs, List.chain'_cons']
      refine ⟨?_, ih false⟩
      intro y hy
      exact Or.inl (not_isSpc_of_isWordChar hw)
    · rw [if_neg (ne_true_of_false hw)]
      rcases Bool.eq_false_or_eq_true b with hb | hb
      · rw [hb, if_pos rfl]
        exact ih true
      · rw [hb, if_neg (ne_true_of_false rfl)]
        rw [NoDoubleWs, List.chain'_cons']
        refine ⟨?_, ih true⟩
        intro y hy
        exact Or.inr (not_isSpc_of_isWordChar (punctSubAux_true_head ds y hy))

theorem punctSub_wordOrSpace (s : Str) : WordOrSpace (punctSub s) :=
  punctSubAux_wordOrSpace s false

theorem punctSub_noDouble (s : Str) : NoDoubleWs (punctSub s) :=
  punctSubAux_noDouble s false

theorem punctSubAux_id (l : Str) (hws : WordOrSpace l) (hnd : NoDoubleWs l) :
    punctSubAux false l = l ∧
    ((∀ c, l.head? = some c → isSpc c = false) → punctSubAux true l = l) := by
  induction l with
  | nil => exact ⟨rfl, fun _ => rfl⟩
  | cons d ds ih =>
    have hws2 : WordOrSpace ds := fun c hc => hws c (List.mem_cons_of_mem d hc)
    have hnd2 : NoDoubleWs ds := (List.chain'_cons'.mp hnd).2
    obtain ⟨ih1, ih2⟩ := ih hws2 hnd2
    rcases hws d (List.mem_cons_self d ds) with hw | hsp
    · constructor
      · unfold punctSubAux
        rw [if_pos hw, ih1]
      · intro _
        unfold punctSubAux
        rw [if_pos hw, ih1]
    · subst hsp
      have hdssp : ∀ c, ds.head? = some c → isSpc c = false := by
        intro c hc
        rcases (List.chain'_cons'.mp hnd).1 c hc with h1 | h2
        · exact absurd isSpc_space (by simp [h1])
        · exact h2
      constructor
      · unfold punctSubAux
        rw [if_neg (ne_true_of_false isWordChar_space), if_neg (ne_true_of_false rfl)]
        rw [ih2 hdssp]
      · intro hhd
        have h1 := hhd ' ' (by simp)
        rw [isSpc_space] at h1
        exact absurd h1 (by simp)

theorem punctSub_id (l : Str) (hws : WordOrSpace l) (hnd : NoDoubleWs l) :
    punctSub l = l :=
  (punctSubAux_id l hws hnd).1

/-! ### lowerStr lemmas -/

theorem lowerStr_allLower (s : Str) : AllLower (lowerStr s) := by
  intro c hc
  obtain ⟨d, _, rfl⟩ := List.mem_map.mp hc
  exact lowerChar_lowerChar d

theorem lowerStr_of_allLower (s : Str) (h : AllLower s) : lowerStr s = s := by
  induction s with
  | nil => rfl
  | cons c cs ih =>
    have hc := h c (List.mem_cons_self c cs)
    have ih2 := ih (fun d hd => h d (List.mem_cons_of_mem c hd))
    simp only [lowerStr, List.map_cons] at ih2 ⊢
    rw [hc, ih2]

theorem lowerStr_wordOrSpace (s : Str) (h : WordOrSpace s) :
    WordOrSpace (lowerStr s) := by
  intro c hc
  obtain ⟨d, hd, rfl⟩ := List.mem_map.mp hc
  rcases h d hd with hw | hsp
  · exact Or.inl (by rw [isWordChar_lowerChar]; exact hw)
  · subst hsp
    exact Or.inr lowerChar_space

theorem lowerStr_noDouble (s : Str) (h : NoDoubleWs s) :
    NoDoubleWs (lowerStr s) := by
  rw [NoDoubleWs, lowerStr, List.chain'_map]
  refine List.Chain'.imp ?_ h
  intro a b hab
  rw [isSpc_lowerChar, isSpc_lowerChar]
  exact hab

/-! ### collapseSpaces lemmas -/

theorem collapseAux_mem (l : Str) :
    ∀ (st : CState) (c : Char), c ∈ collapseAux st l →
      c = ' ' ∨ c ∈ pendingCS st ∨ c ∈ l := by
  induction l with
  | nil =>
    intro st c hc
    cases st with
    | norm => simp [collapseAux] at hc
    | held h => simp only [collapseAux, List.mem_singleton] at hc; exact Or.inr (Or.inl (by simp [pendingCS, hc]))
    | skp => simp [collapseAux] at hc
  | cons d ds ih =>
    intro st c hc
    cases st with
    | norm =>
      unfold collapseAux at hc
      rcases Bool.eq_false_or_eq_true (isSpc d) with hd | hd
      · rw [if_pos hd] at hc
        rcases ih (.held d) c hc with h1 | h2 | h3
        · exact Or.inl h1
        · simp only [pendingCS, List.mem_singleton] at h2
          exact Or.inr (Or.inr (by simp [h2]))
        · exact Or.inr (Or.inr (List.mem_cons_of_mem d h3))
      · rw [if_neg (ne_true_of_false hd)] at hc
        rcases List.mem_cons.mp hc with rfl | hc2
        · exact Or.inr (Or.inr (List.mem_cons_self c ds))
        · rcases ih .norm c hc2 with h1 | h2 | h3
          · exact Or.inl h1
          · simp [pendingCS] at h2
          · exact Or.inr (Or.inr (List.mem_cons_of_mem d h3))
    | held h =>
      unfold collapseAux at hc
      rcases Bool.eq_false_or_eq_true (isSpc d) with hd | hd
      · rw [if_pos hd] at hc
        rcases List.mem_cons.mp hc with rfl | hc2
        · exact Or.inl rfl
        · rcases ih .skp c hc2 with h1 | h2 | h3
          · exact Or.inl h1
          · simp [pendingCS] at h2
          · exact Or.inr (Or.inr (List.mem_cons_of_mem d h3))
      · rw [if_neg (ne_true_of_false hd)] at hc
        rcases List.mem_cons.mp hc with rfl | hc2
        · exact Or.inr (Or.inl (by simp [pendingCS]))
        · rcases List.mem_cons.mp hc2 with rfl | hc3
          · exact Or.inr (Or.inr (List.mem_cons_self c ds))
          · rcases ih .norm c hc3 with h1 | h2 | h3
            · exact Or.inl h1
            · simp [pendingCS] at h2
            · exact Or.inr (Or.inr (List.mem_cons_of_mem d h3))
    | skp =>
      unfold collapseAux at hc
      rcases Bool.eq_false_or_eq_true (isSpc d) with hd | hd
      · rw [if_pos hd] at hc
        rcases ih .skp c hc with h1 | h2 | h3
        · exact Or.inl h1
        · simp [pendingCS] at h2
        · exact Or.inr (Or.inr (List.mem_cons_of_mem d h3))
      · rw [if_neg (ne_true_of_false hd)] at hc
        rcases List.mem_cons.mp hc with rfl | hc2
        · exact Or.inr (Or.inr (List.mem_cons_self c ds))
        · rcases ih .norm c hc2 with h1 | h2 | h3
          · exact Or.inl h1
          · simp [pendingCS] at h2
          · exact Or.inr (Or.inr (List.mem_cons_of_mem d h3))

theorem collapseAux_mem_of_nonspc (l : Str) :
    ∀ (st : CState) (c : Char), c ∈ l → isSpc c = false → c ∈ collapseAux st l := by
  induction l with
  | nil => intro st c hc; simp at hc
  | cons d ds ih =>
    intro st c hc hns
    have hcd : c = d ∨ c ∈ ds := List.mem_cons.mp hc
    cases st with
    | norm =>
      unfold collapseAux
      rcases Bool.eq_false_or_eq_true (isSpc d) with hd | hd
      · rw [if_pos hd]
        rcases hcd with rfl | hc2
        · rw [hns] at hd; exact absurd hd (by simp)
        · exact ih (.held d) c hc2 hns
      · rw [if_neg (ne_true_of_false hd)]
        rcases hcd with rfl | hc2
        · exact List.mem_cons_self c _
        · exact List.mem_cons_of_mem d (ih .norm c hc2 hns)
    | held h =>
      unfold collapseAux
      rcases Bool.eq_false_or_eq_true (isSpc d) with hd | hd
      · rw [if_pos hd]
        rcases hcd with rfl | hc2
        · rw [hns] at hd; exact absurd hd (by simp)
        · exact List.mem_cons_of_mem ' ' (ih .skp c hc2 hns)
      · rw [if_neg (ne_true_of_false hd)]
        rcases hcd with rfl | hc2
        · exact List.mem_cons_of_mem h (List.mem_cons_self c _)
        · exact List.mem_cons_of_mem h (List.mem_cons_of_mem d (ih .norm c hc2 hns))
    | skp =>
      unfold collapseAux
      rcases Bool.eq_false_or_eq_true (isSpc d) with hd | hd
      · rw [if_pos hd]
        rcases hcd with rfl | hc2
        · rw [hns] at hd; exact absurd hd (by simp)
        · exact ih .skp c hc2 hns
      · rw [if_neg (ne_true_of_false hd)]
        rcases hcd with rfl | hc2
        · exact List.mem_cons_self c _
        · exact List.mem_cons_of_mem d (ih .norm c hc2 hns)

theorem collapseAux_skp_head (l : Str) :
    ∀ c, (collapseAux .skp l).head? = some c → isSpc c = false := by
  induction l with
  | nil => intro c hc; simp [collapseAux] at hc
  | cons d ds ih =>
    intro c hc
    unfold collapseAux at hc
    rcases Bool.eq_false_or_eq_true (isSpc d) with hd | hd
    · rw [if_pos hd] at hc
      exact ih c hc
    · rw [if_neg (ne_true_of_false hd)] at hc
      simp only [List.head?_cons, Option.some.injEq] at hc
      subst hc
      exact hd

theorem collapseAux_noDouble (l : Str) : ∀ st, NoDoubleWs (collapseAux st l) := by
  induction l with
  | nil =>
    intro st
    cases st with
    | norm => simp [collapseAux, NoDoubleWs]
    | held h => simp [collapseAux, NoDoubleWs]
    | skp => simp [collapseAux, NoDoubleWs]
  | cons d ds ih =>
    intro st
    cases st with
    | norm =>
      unfold collapseAux
      rcases Bool.eq_false_or_eq_true (isSpc d) with hd | hd
      · rw [if_pos hd]; exact ih (.held d)
      · rw [if_neg (ne_true_of_false hd)]
        rw [NoDoubleWs, List.chain'_cons']
        exact ⟨fun y _ => Or.inl hd, ih .norm⟩
    | held h =>
      unfold collapseAux
      rcases Bool.eq_false_or_eq_true (isSpc d) with hd | hd
      · rw [if_pos hd]
        rw [NoDoubleWs, List.chain'_cons']
        refine ⟨?_, ih .skp⟩
        intro y hy
        exact Or.inr (collapseAux_skp_head ds y hy)
      · rw [if_neg (ne_true_of_false hd)]
        rw [NoDoubleWs, List.chain'_cons']
        refine ⟨fun y hy => ?_, ?_⟩
        · simp only [List.head?_cons, Option.mem_def, Option.some.injEq] at hy
          subst hy
          exact Or.inr hd
        · rw [List.chain'_cons']
          exact ⟨fun y _ => Or.inl hd, ih .norm⟩
    | skp =>
      unfold collapseAux
      rcases Bool.eq_false_or_eq_true (isSpc d) with hd | hd
      · rw [if_pos hd]; exact ih .skp
      · rw [if_neg (ne_true_of_false hd)]
        rw [NoDoubleWs, List.chain'_cons']
        exact ⟨fun y _ => Or.inl hd, ih .norm⟩

theorem collapseSpaces_noDouble (s : Str) : NoDoubleWs (collapseSpaces s) :=
  collapseAux_noDouble s .norm

theorem collapseAux_id (l : Str) :
    (NoDoubleWs l → collapseAux .norm l = l) ∧
    (∀ h, isSpc h = true → NoDoubleWs (h :: l) → collapseAux (.held h) l = h :: l) := by
  induction l with
  | nil => exact ⟨fun _ => rfl, fun h _ _ => rfl⟩
  | cons c cs ih =>
    constructor
    · intro hnd
      unfold collapseAux
      rcases Bool.eq_false_or_eq_true (isSpc c) with hsp | hsp
      · rw [if_pos hsp]
        exact ih.2 c hsp hnd
      · rw [if_neg (ne_true_of_false hsp)]
        rw [ih.1 (List.chain'_cons'.mp hnd).2]
    · intro h hh hnd
      have hc : isSpc c = false := by
        rcases (List.chain'_cons'.mp hnd).1 c rfl with h1 | h2
        · rw [hh] at h1; exact absurd h1 (by simp)
        · exact h2
      unfold collapseAux
      rw [if_neg (ne_true_of_false hc)]
      rw [ih.1 (List.chain'_cons'.mp (List.chain'_cons'.mp hnd).2).2]

theorem collapseSpaces_id (l : Str) (h : NoDoubleWs l) : collapseSpaces l = l :=
  (collapseAux_id l).1 h

/-! ### stripChars lemmas -/

theorem dropWhile_head_not (p : Char → Bool) :
    ∀ (l : Str) (c : Char), (l.dropWhile p).head? = some c → p c = false := by
  intro l
  induction l with
  | nil => intro c hc; simp [List.dropWhile] at hc
  | cons d ds ih =>
    intro c hc
    rw [List.dropWhile_cons] at hc
    by_cases hd : p d = true
    · rw [if_pos hd] at hc; exact ih c hc
    · rw [if_neg hd] at hc
      simp only [List.head?_cons, Option.some.injEq] at hc
      subst hc
      exact Bool.eq_false_iff.mpr hd

theorem mem_dropWhile_of_not (p : Char → Bool) :
    ∀ (l : Str) (c : Char), c ∈ l → p c = false → c ∈ l.dropWhile p := by
  intro l
  induction l with
  | nil => intro c hc; simp at hc
  | cons d ds ih =>
    intro c hc hp
    rw [List.dropWhile_cons]
    by_cases hd : p d = true
    · rw [if_pos hd]
      rcases List.mem_cons.mp hc with rfl | hc2
      · rw [hp] at hd; exact absurd hd (by simp)
      · exact ih c hc2 hp
    · rw [if_neg hd]; exact hc

theorem stripChars_ne_nil (l : Str) (c : Char) (hc : c ∈ l) (hns : isSpc c = false) :
    stripChars l ≠ [] := by
  have h1 : c ∈ l.dropWhile isSpc := mem_dropWhile_of_not isSpc l c hc hns
  have h2 : c ∈ (l.dropWhile isSpc).reverse := List.mem_reverse.mpr h1
  have h3 : c ∈ (l.dropWhile isSpc).reverse.dropWhile isSpc :=
    mem_dropWhile_of_not isSpc _ c h2 hns
  exact List.ne_nil_of_mem (List.mem_reverse.mpr h3)

theorem dropWhile_all (p : Char → Bool) (l : Str) (h : ∀ c ∈ l, p c = true) :
    l.dropWhile p = [] := by
  induction l with
  | nil => rfl
  | cons d ds ih =>
    rw [List.dropWhile_cons, if_pos (h d (List.mem_cons_self d ds))]
    exact ih (fun c hc => h c (List.mem_cons_of_mem d hc))

theorem stripChars_all_spc (l : Str) (h : ∀ c ∈ l, isSpc c = true) :
    stripChars l = [] := by
  rw [stripChars, dropWhile_all isSpc l h]
  rfl

theorem stripChars_mem (l : Str) (c : Char) (hc : c ∈ stripChars l) : c ∈ l := by
  rw [stripChars] at hc
  rw [List.mem_reverse] at hc
  have h1 := (List.dropWhile_sublist (l := (l.dropWhile isSpc).reverse) isSpc).subset hc
  rw [List.mem_reverse] at h1
  exact (List.dropWhile_sublist (l := l) isSpc).subset h1

theorem dropWhile_eq_strip_append (l : Str) :
    l.dropWhile isSpc =
      stripChars l ++ ((l.dropWhile isSpc).reverse.takeWhile isSpc).reverse := by
  conv_lhs => rw [← List.reverse_reverse (l.dropWhile isSpc)]
  conv_lhs =>
    rw [← List.takeWhile_append_dropWhile isSpc (l.dropWhile isSpc).reverse]
  rw [List.reverse_append]
  rfl

theorem stripChars_decomp (l : Str) :
    ∃ a b, (∀ c ∈ a, isSpc c = true) ∧ (∀ c ∈ b, isSpc c = true) ∧
      l = a ++ stripChars l ++ b := by
  refine ⟨l.takeWhile isSpc, ((l.dropWhile isSpc).reverse.takeWhile isSpc).reverse,
    ?_, ?_, ?_⟩
  · intro c hc; exact List.mem_takeWhile_imp hc
  · intro c hc
    rw [List.mem_reverse] at hc
    exact List.mem_takeWhile_imp hc
  · conv_lhs => rw [← List.takeWhile_append_dropWhile isSpc l]
    rw [List.append_assoc]
    congr 1
    exact dropWhile_eq_strip_append l

theorem stripChars_noDouble (l : Str) (h : NoDoubleWs l) :
    NoDoubleWs (stripChars l) := by
  obtain ⟨a, b, _, _, heq⟩ := stripChars_decomp l
  rw [heq, List.append_assoc] at h
  exact (List.Chain'.right_of_append h).left_of_append

theorem stripChars_noEdge (l : Str) : NoEdgeWs (stripChars l) := by
  constructor
  · intro c hc
    have hm : (l.dropWhile isSpc).head? = some c := by
      rw [dropWhile_eq_strip_append l]
      cases hs : stripChars l with
      | nil => rw [hs] at hc; simp at hc
      | cons d rest =>
        rw [hs] at hc
        simp only [List.head?_cons, Option.some.injEq] at hc
        rw [List.cons_append, List.head?_cons, hc]
    exact dropWhile_head_not isSpc l c hm
  · intro c hc
    have h1 : (stripChars l).reverse.head? = some c := by
      rw [List.head?_reverse]
      exact hc
    have h2 : (stripChars l).reverse = (l.dropWhile isSpc).reverse.dropWhile isSpc := by
      rw [stripChars, List.reverse_reverse]
    rw [h2] at h1
    exact dropWhile_head_not isSpc _ c h1

theorem stripChars_id (l : Str) (h : NoEdgeWs l) : stripChars l = l := by
  obtain ⟨h1, h2⟩ := h
  have hd : l.dropWhile isSpc = l := by
    cases l with
    | nil => rfl
    | cons c cs =>
      rw [List.dropWhile_cons, if_neg (ne_true_of_false (h1 c rfl))]
  rw [stripChars, hd]
  have hd2 : l.reverse.dropWhile isSpc = l.reverse := by
    cases hr : l.reverse with
    | nil => simp
    | cons c cs =>
      have hg : l.getLast? = some c := by
        rw [← List.head?_reverse, hr]
        rfl
      rw [List.dropWhile_cons, if_neg (ne_true_of_false (h2 c hg))]
  rw [hd2, List.reverse_reverse]

/-! ### wordRuns lemmas -/

theorem not_isWordChar_of_isSpc {c : Char} (h : isSpc c = true) :
    isWordChar c = false := by
  rw [isSpc_iff] at h
  rw [Bool.eq_false_iff, Ne, isWordChar_iff]
  omega

theorem runs_word_cons (d : Char) (l acc : Str) (h : isWordChar d = true) :
    wordRunsAux acc (d :: l) = wordRunsAux (acc ++ [d]) l := by
  rw [wordRunsAux, if_pos h]

theorem runs_nonword_cons (d : Char) (l acc : Str) (h : isWordChar d = false) :
    wordRunsAux acc (d :: l) =
      if acc = [] then wordRunsAux [] l else acc :: wordRunsAux [] l := by
  rw [wordRunsAux, if_neg (ne_true_of_false h)]

theorem runs_consume (a : Str) (ha : ∀ c ∈ a, isWordChar c = true) :
    ∀ (acc z : Str), wordRunsAux acc (a ++ z) = wordRunsAux (acc ++ a) z := by
  induction a with
  | nil => intro acc z; simp
  | cons d ds ih =>
    intro acc z
    rw [List.cons_append,
      runs_word_cons d (ds ++ z) acc (ha d (List.mem_cons_self d ds)),
      ih (fun c hc => ha c (List.mem_cons_of_mem d hc)) (acc ++ [d]) z,
      List.append_cons acc d ds]

theorem runs_flush (l : Str) (h : ∀ c ∈ l, isWordChar c = false) :
    ∀ acc, wordRunsAux acc l = if acc = [] then [] else [acc] := by
  induction l with
  | nil => intro acc; rfl
  | cons d ds ih =>
    intro acc
    rw [runs_nonword_cons d ds acc (h d (List.mem_cons_self d ds))]
    have ih2 := ih (fun c hc => h c (List.mem_cons_of_mem d hc))
    by_cases hacc : acc = []
    · rw [if_pos hacc, if_pos hacc, ih2 []]
      rfl
    · rw [if_neg hacc, if_neg hacc, ih2 []]
      rfl

theorem runs_nil (l : Str) :
    ∀ acc, wordRunsAux acc l = [] →
      acc = [] ∧ ∀ c ∈ l, isWordChar c = false := by
  induction l with
  | nil =>
    intro acc h
    unfold wordRunsAux at h
    by_cases hacc : acc = []
    · exact ⟨hacc, by simp⟩
    · rw [if_neg hacc] at h; simp at h
  | cons d ds ih =>
    intro acc h
    rcases Bool.eq_false_or_eq_true (isWordChar d) with hd | hd
    · rw [runs_word_cons d ds acc hd] at h
      obtain ⟨h1, _⟩ := ih (acc ++ [d]) h
      simp at h1
    · rw [runs_nonword_cons d ds acc hd] at h
      by_cases hacc : acc = []
      · rw [if_pos hacc] at h
        obtain ⟨_, h2⟩ := ih [] h
        refine ⟨hacc, ?_⟩
        intro c hc
        rcases List.mem_cons.mp hc with rfl | hc2
        · exact hd
        · exact h2 c hc2
      · rw [if_neg hacc] at h
        simp at h

theorem runs_all_word (l : Str) :
    ∀ acc, (∀ c ∈ acc, isWordChar c = true) →
      ∀ r ∈ wordRunsAux acc l, ∀ c ∈ r, isWordChar c = true := by
  induction l with
  | nil =>
    intro acc hacc r hr
    unfold wordRunsAux at hr
    by_cases h : acc = []
    · rw [if_pos h] at hr; simp at hr
    · rw [if_neg h] at hr
      simp only [List.mem_singleton] at hr
      subst hr
      exact hacc
  | cons d ds ih =>
    intro acc hacc r hr
    rcases Bool.eq_false_or_eq_true (isWordChar d) with hd | hd
    · rw [runs_word_cons d ds acc hd] at hr
      refine ih (acc ++ [d]) ?_ r hr
      intro c hc
      rcases List.mem_append.mp hc with hc2 | hc2
      · exact hacc c hc2
      · simp only [List.mem_singleton] at hc2; subst hc2; exact hd
    · rw [runs_nonword_cons d ds acc hd] at hr
      by_cases h : acc = []
      · rw [if_pos h] at hr
        exact ih [] (by simp) r hr
      · rw [if_neg h] at hr
        rcases List.mem_cons.mp hr with rfl | hr2
        · exact hacc
        · exact ih [] (by simp) r hr2

theorem runs_chars (l : Str) :
    ∀ acc r, r ∈ wordRunsAux acc l → ∀ c ∈ r, c ∈ acc ∨ c ∈ l := by
  induction l with
  | nil =>
    intro acc r hr c hc
    unfold wordRunsAux at hr
    by_cases h : acc = []
    · rw [if_pos h] at hr; simp at hr
    · rw [if_neg h] at hr
      simp only [List.mem_singleton] at hr
      subst hr
      exact Or.inl hc
  | cons d ds ih =>
    intro acc r hr c hc
    rcases Bool.eq_false_or_eq_true (isWordChar d) with hd | hd
    · rw [runs_word_cons d ds acc hd] at hr
      rcases ih (acc ++ [d]) r hr c hc with h1 | h2
      · rcases List.mem_append.mp h1 with h3 | h3
        · exact Or.inl h3
        · simp only [List.mem_singleton] at h3
          subst h3
          exact Or.inr (List.mem_cons_self c ds)
      · exact Or.inr (List.mem_cons_of_mem d h2)
    · rw [runs_nonword_cons d ds acc hd] at hr
      by_cases h : acc = []
      · rw [if_pos h] at hr
        rcases ih [] r hr c hc with h1 | h2
        · simp at h1
        · exact Or.inr (List.mem_cons_of_mem d h2)
      · rw [if_neg h] at hr
        rcases List.mem_cons.mp hr with rfl | hr2
        · exact Or.inl hc
        · rcases ih [] r hr2 c hc with h1 | h2
          · simp at h1
          · exact Or.inr (List.mem_cons_of_mem d h2)

/-! ### wordRuns preservation along the cleaning pipeline -/

theorem punctSubAux_runs (l : Str) :
    ∀ (b : Bool) (acc : Str), (b = true → acc = []) →
      wordRunsAux acc (punctSubAux b l) = wordRunsAux acc l := by
  induction l with
  | nil => intro b acc _; rfl
  | cons d ds ih =>
    intro b acc hb
    unfold punctSubAux
    rcases Bool.eq_false_or_eq_true (isWordChar d) with hd | hd
    · rw [if_pos hd, runs_word_cons d _ acc hd, runs_word_cons d ds acc hd]
      exact ih false (acc ++ [d]) (by simp)
    · rw [if_neg (ne_true_of_false hd)]
      rcases Bool.eq_false_or_eq_true b with hb2 | hb2
      · subst hb2
        rw [if_pos rfl]
        have hacc := hb rfl
        subst hacc
        rw [runs_nonword_cons d ds [] hd, if_pos rfl]
        exact ih true [] (fun _ => rfl)
      · subst hb2
        rw [if_neg (ne_true_of_false rfl)]
        rw [runs_nonword_cons ' ' _ acc isWordChar_space,
          runs_nonword_cons d ds acc hd]
        by_cases hacc : acc = []
        · rw [if_pos hacc, if_pos hacc]
          exact ih true [] (fun _ => rfl)
        · rw [if_neg hacc, if_neg hacc]
          rw [ih true [] (fun _ => rfl)]

theorem punctSub_runs (s : Str) : wordRuns (punctSub s) = wordRuns s :=
  punctSubAux_runs s false [] (by simp)

theorem lowerStr_runs (l : Str) :
    ∀ acc, wordRunsAux (lowerStr acc) (lowerStr l) =
      (wordRunsAux acc l).map lowerStr := by
  induction l with
  | nil =>
    intro acc
    by_cases h : acc = []
    · subst h
      simp [wordRunsAux, lowerStr]
    · have h2 : lowerStr acc ≠ [] := by simp [lowerStr, h]
      rw [show lowerStr ([] : Str) = [] from rfl, wordRunsAux, wordRunsAux,
        if_neg h, if_neg h2]
      rfl
  | cons d ds ih =>
    intro acc
    have hmap : lowerStr (d :: ds) = lowerChar d :: lowerStr ds := rfl
    rw [hmap]
    rcases Bool.eq_false_or_eq_true (isWordChar d) with hd | hd
    · have hld : isWordChar (lowerChar d) = true := by
        rw [isWordChar_lowerChar]; exact hd
      rw [runs_word_cons (lowerChar d) (lowerStr ds) (lowerStr acc) hld,
        runs_word_cons d ds acc hd]
      have h2 : lowerStr acc ++ [lowerChar d] = lowerStr (acc ++ [d]) := by
        simp [lowerStr]
      rw [h2]
      exact ih (acc ++ [d])
    · have hld : isWordChar (lowerChar d) = false := by
        rw [isWordChar_lowerChar]; exact hd
      rw [runs_nonword_cons (lowerChar d) (lowerStr ds) (lowerStr acc) hld,
        runs_nonword_cons d ds acc hd]
      by_cases h : acc = []
      · rw [if_pos h, if_pos (by simp [lowerStr, h])]
        have h2 := ih []
        rw [show lowerStr ([] : Str) = [] from rfl] at h2
        exact h2
      · rw [if_neg h, if_neg (by simp [lowerStr, h])]
        have h2 := ih []
        rw [show lowerStr ([] : Str) = [] from rfl] at h2
        rw [h2]
        rfl

theorem collapseAux_runs (l : Str) :
    ∀ (st : CState) (acc : Str),
      (∀ h, st = CState.held h → isSpc h = true) →
      (st = CState.skp → acc = []) →
      wordRunsAux acc (collapseAux st l) = wordRunsAux acc (pendingCS st ++ l) := by
  induction l with
  | nil =>
    intro st acc hwf hskp
    cases st with
    | norm => rfl
    | held h => rfl
    | skp => rfl
  | cons d ds ih =>
    intro st acc hwf hskp
    cases st with
    | norm =>
      rw [show pendingCS CState.norm ++ (d :: ds) = d :: ds from rfl]
      rw [collapseAux]
      rcases Bool.eq_false_or_eq_true (isSpc d) with hd | hd
      · rw [if_pos hd]
        have h0 := ih (CState.held d) acc
          (by intro x hx; cases hx; exact hd) (by intro hx; cases hx)
        rw [h0]
        rfl
      · rw [if_neg (ne_true_of_false hd)]
        rcases Bool.eq_false_or_eq_true (isWordChar d) with hw | hw
        · rw [runs_word_cons d _ acc hw, runs_word_cons d ds acc hw]
          exact ih CState.norm (acc ++ [d])
            (by intro x hx; cases hx) (by intro hx; cases hx)
        · rw [runs_nonword_cons d _ acc hw, runs_nonword_cons d ds acc hw]
          have h0 := ih CState.norm []
            (by intro x hx; cases hx) (by intro hx; cases hx)
          rw [show pendingCS CState.norm ++ ds = ds from rfl] at h0
          by_cases hacc : acc = []
          · rw [if_pos hacc, if_pos hacc, h0]
          · rw [if_neg hacc, if_neg hacc, h0]
    | held h =>
      have hh : isSpc h = true := hwf h rfl
      have hwh : isWordChar h = false := not_isWordChar_of_isSpc hh
      rw [show pendingCS (CState.held h) ++ (d :: ds) = h :: d :: ds from rfl]
      rw [collapseAux]
      rcases Bool.eq_false_or_eq_true (isSpc d) with hd | hd
      · rw [if_pos hd]
        rw [runs_nonword_cons ' ' _ acc isWordChar_space,
          runs_nonword_cons h _ acc hwh]
        have h0 := ih CState.skp [] (by intro x hx; cases hx) (fun _ => rfl)
        rw [show pendingCS CState.skp ++ ds = ds from rfl] at h0
        have hwd : isWordChar d = false := not_isWordChar_of_isSpc hd
        have h1 : wordRunsAux ([] : Str) (d :: ds) = wordRunsAux [] ds := by
          rw [runs_nonword_cons d ds [] hwd, if_pos rfl]
        by_cases hacc : acc = []
        · rw [if_pos hacc, if_pos hacc, h0, h1]
        · rw [if_neg hacc, if_neg hacc, h0, h1]
      · rw [if_neg (ne_true_of_false hd)]
        rw [runs_nonword_cons h _ acc hwh, runs_nonword_cons h _ acc hwh]
        have hrec : wordRunsAux ([] : Str) (d :: collapseAux CState.norm ds) =
            wordRunsAux [] (d :: ds) := by
          rcases Bool.eq_false_or_eq_true (isWordChar d) with hw | hw
          · rw [runs_word_cons d _ [] hw, runs_word_cons d ds [] hw]
            have h0 := ih CState.norm ([] ++ [d])
              (by intro x hx; cases hx) (by intro hx; cases hx)
            rw [show pendingCS CState.norm ++ ds = ds from rfl] at h0
            exact h0
          · rw [runs_nonword_cons d _ [] hw, runs_nonword_cons d ds [] hw,
              if_pos rfl, if_pos rfl]
            have h0 := ih CState.norm []
              (by intro x hx; cases hx) (by intro hx; cases hx)
            rw [show pendingCS CState.norm ++ ds = ds from rfl] at h0
            exact h0
        by_cases hacc : acc = []
        · rw [if_pos hacc, if_pos hacc, hrec]
        · rw [if_neg hacc, if_neg hacc, hrec]
    | skp =>
      have hacc := hskp rfl
      subst hacc
      rw [show pendingCS CState.skp ++ (d :: ds) = d :: ds from rfl]
      rw [collapseAux]
      rcases Bool.eq_false_or_eq_true (isSpc d) with hd | hd
      · rw [if_pos hd]
        have h0 := ih CState.skp [] (by intro x hx; cases hx) (fun _ => rfl)
        rw [show pendingCS CState.skp ++ ds = ds from rfl] at h0
        rw [h0]
        have hwd : isWordChar d = false := not_isWordChar_of_isSpc hd
        rw [runs_nonword_cons d ds [] hwd, if_pos rfl]
      · rw [if_neg (ne_true_of_false hd)]
        rcases Bool.eq_false_or_eq_true (isWordChar d) with hw | hw
        · rw [runs_word_cons d _ [] hw, runs_word_cons d ds [] hw]
          have h0 := ih CState.norm ([] ++ [d])
            (by intro x hx; cases hx) (by intro hx; cases hx)
          rw [show pendingCS CState.norm ++ ds = ds from rfl] at h0
          exact h0
        · rw [runs_nonword_cons d _ [] hw, runs_nonword_cons d ds [] hw,
            if_pos rfl, if_pos rfl]
          have h0 := ih CState.norm []
            (by intro x hx; cases hx) (by intro hx; cases hx)
          rw [show pendingCS CState.norm ++ ds = ds from rfl] at h0
          exact h0

theorem collapseSpaces_runs (s : Str) :
    wordRuns (collapseSpaces s) = wordRuns s := by
  have h := collapseAux_runs s CState.norm []
    (by intro x hx; cases hx) (by intro hx; cases hx)
  rw [show pendingCS CState.norm ++ s = s from rfl] at h
  exact h

theorem runs_append_nonword (sp : Str) (hsp : ∀ c ∈ sp, isWordChar c = false)
    (l : Str) : ∀ acc, wordRunsAux acc (l ++ sp) = wordRunsAux acc l := by
  induction l with
  | nil =>
    intro acc
    rw [List.nil_append, runs_flush sp hsp acc, wordRunsAux]
  | cons d ds ih =>
    intro acc
    rcases Bool.eq_false_or_eq_true (isWordChar d) with hw | hw
    · rw [List.cons_append, runs_word_cons d _ acc hw, runs_word_cons d ds acc hw]
      exact ih (acc ++ [d])
    · rw [List.cons_append, runs_nonword_cons d _ acc hw,
        runs_nonword_cons d ds acc hw]
      by_cases hacc : acc = []
      · rw [if_pos hacc, if_pos hacc, ih []]
      · rw [if_neg hacc, if_neg hacc, ih []]

theorem runs_prepend_nonword (a : Str) (ha : ∀ c ∈ a, isWordChar c = false)
    (l : Str) : wordRunsAux [] (a ++ l) = wordRunsAux [] l := by
  induction a with
  | nil => rfl
  | cons d ds ih =>
    rw [List.cons_append,
      runs_nonword_cons d _ [] (ha d (List.mem_cons_self d ds)), if_pos rfl]
    exact ih (fun c hc => ha c (List.mem_cons_of_mem d hc))

theorem stripChars_runs (l : Str) : wordRuns (stripChars l) = wordRuns l := by
  obtain ⟨a, b, ha, hb, heq⟩ := stripChars_decomp l
  have ha2 : ∀ c ∈ a, isWordChar c = false :=
    fun c hc => not_isWordChar_of_isSpc (ha c hc)
  have hb2 : ∀ c ∈ b, isWordChar c = false :=
    fun c hc => not_isWordChar_of_isSpc (hb c hc)
  conv_rhs => rw [heq]
  rw [wordRuns, wordRuns, List.append_assoc, runs_prepend_nonword a ha2,
    runs_append_nonword b hb2 (stripChars l) []]

/-! ### removeWord lemmas -/

theorem removeWord_id (w : Str) (hw : w ≠ []) :
    ∀ (l acc : Str), (∀ r ∈ wordRunsAux acc l, r ≠ w) →
      removeWordAux w acc l = acc ++ l := by
  intro l
  induction l with
  | nil =>
    intro acc hr
    rw [removeWordAux]
    by_cases hacc : acc = []
    · subst hacc
      rw [if_neg (fun h => hw h.symm)]
      rfl
    · rw [wordRunsAux, if_neg hacc] at hr
      rw [if_neg (hr acc (List.mem_singleton.mpr rfl)), List.append_nil]
  | cons d ds ih =>
    intro acc hr
    rw [removeWordAux]
    rcases Bool.eq_false_or_eq_true (isWordChar d) with hd | hd
    · rw [if_pos hd]
      rw [runs_word_cons d ds acc hd] at hr
      rw [ih (acc ++ [d]) hr]
      simp
    · rw [if_neg (ne_true_of_false hd)]
      rw [runs_nonword_cons d ds acc hd] at hr
      by_cases hacc : acc = []
      · rw [if_pos hacc] at hr
        subst hacc
        rw [if_neg (fun h => hw h.symm), ih [] hr]
        rfl
      · rw [if_neg hacc] at hr
        rw [if_neg (hr acc (List.mem_cons_self acc _))]
        rw [ih [] (fun r hrr => hr r (List.mem_cons_of_mem acc hrr))]
        rw [List.nil_append]

theorem removeWord_runs (w : Str) (hw : w ≠ []) :
    ∀ (l acc : Str), (∀ c ∈ acc, isWordChar c = true) →
      wordRuns (removeWordAux w acc l) =
        (wordRunsAux acc l).filter (fun r => decide (r ≠ w)) := by
  intro l
  induction l with
  | nil =>
    intro acc hacc
    rw [removeWordAux, wordRunsAux]
    by_cases heq : acc = w
    · have hnil : acc ≠ [] := by rw [heq]; exact hw
      rw [if_pos heq, if_neg hnil]
      rw [wordRuns, runs_flush [' '] (by simp [isWordChar_space]) [], if_pos rfl]
      rw [heq, List.filter_cons]
      simp
    · rw [if_neg heq]
      by_cases hnil : acc = []
      · subst hnil
        rw [if_pos rfl]
        rfl
      · rw [if_neg hnil]
        have h1 : wordRuns acc = [acc] := by
          rw [wordRuns, show acc = acc ++ ([] : Str) from (List.append_nil acc).symm]
          rw [runs_consume acc hacc [] [], List.nil_append, List.append_nil]
          rw [wordRunsAux, if_neg hnil]
        rw [h1, List.filter_cons]
        simp [heq]
  | cons d ds ih =>
    intro acc hacc
    rw [removeWordAux]
    rcases Bool.eq_false_or_eq_true (isWordChar d) with hd | hd
    · rw [if_pos hd, runs_word_cons d ds acc hd]
      refine ih (acc ++ [d]) ?_
      intro c hc
      rcases List.mem_append.mp hc with h1 | h1
      · exact hacc c h1
      · simp only [List.mem_singleton] at h1
        subst h1
        exact hd
    · rw [if_neg (ne_true_of_false hd), runs_nonword_cons d ds acc hd]
      have hR := ih [] (by simp)
      by_cases heq : acc = w
      · have hnil : acc ≠ [] := by rw [heq]; exact hw
        rw [if_pos heq, if_neg hnil]
        have hL : wordRuns ([' '] ++ d :: removeWordAux w [] ds) =
            wordRuns (removeWordAux w [] ds) := by
          rw [wordRuns, show ([' '] ++ d :: removeWordAux w [] ds) =
            ([' ', d] ++ removeWordAux w [] ds) from rfl]
          refine runs_prepend_nonword [' ', d] ?_ _
          intro c hc
          rcases List.mem_cons.mp hc with rfl | hc2
          · exact isWordChar_space
          · simp only [List.mem_singleton] at hc2
            subst hc2
            exact hd
        rw [hL, hR, List.filter_cons]
        simp [heq]
      · rw [if_neg heq]
        by_cases hnil : acc = []
        · subst hnil
          rw [if_pos rfl]
          have hL : wordRuns (([] : Str) ++ d :: removeWordAux w [] ds) =
              wordRuns (removeWordAux w [] ds) := by
            rw [List.nil_append, wordRuns, show (d :: removeWordAux w [] ds) =
              ([d] ++ removeWordAux w [] ds) from rfl]
            refine runs_prepend_nonword [d] ?_ _
            intro c hc
            simp only [List.mem_singleton] at hc
            subst hc
            exact hd
          rw [hL, hR]
        · rw [if_neg hnil]
          have hL : wordRuns (acc ++ d :: removeWordAux w [] ds) =
              acc :: wordRuns (removeWordAux w [] ds) := by
            rw [wordRuns, runs_consume acc hacc [] _, List.nil_append]
            rw [runs_nonword_cons d _ acc hd, if_neg hnil]
            rfl
          rw [hL, hR, List.filter_cons]
          simp [heq]

theorem removeWordAux_mem (w : Str) :
    ∀ (l acc : Str) (c : Char), c ∈ removeWordAux w acc l →
      c = ' ' ∨ c ∈ acc ∨ c ∈ l := by
  intro l
  induction l with
  | nil =>
    intro acc c hc
    rw [removeWordAux] at hc
    by_cases heq : acc = w
    · rw [if_pos heq] at hc
      simp only [List.mem_singleton] at hc
      exact Or.inl hc
    · rw [if_neg heq] at hc
      exact Or.inr (Or.inl hc)
  | cons d ds ih =>
    intro acc c hc
    rw [removeWordAux] at hc
    rcases Bool.eq_false_or_eq_true (isWordChar d) with hd | hd
    · rw [if_pos hd] at hc
      rcases ih (acc ++ [d]) c hc with h1 | h2 | h3
      · exact Or.inl h1
      · rcases List.mem_append.mp h2 with h4 | h4
        · exact Or.inr (Or.inl h4)
        · simp only [List.mem_singleton] at h4
          subst h4
          exact Or.inr (Or.inr (List.mem_cons_self c ds))
      · exact Or.inr (Or.inr (List.mem_cons_of_mem d h3))
    · rw [if_neg (ne_true_of_false hd)] at hc
      rcases List.mem_append.mp hc with h1 | h1
      · by_cases heq : acc = w
        · rw [if_pos heq] at h1
          simp only [List.mem_singleton] at h1
          exact Or.inl h1
        · rw [if_neg heq] at h1
          exact Or.inr (Or.inl h1)
      · rcases List.mem_cons.mp h1 with rfl | h2
        · exact Or.inr (Or.inr (List.mem_cons_self c ds))
        · rcases ih [] c h2 with h3 | h4 | h5
          · exact Or.inl h3
          · simp at h4
          · exact Or.inr (Or.inr (List.mem_cons_of_mem d h5))

/-! ### Stop-word-removal loop lemmas -/

theorem foldRemove_runs :
    ∀ (ws : List Str) (x : Str), (∀ w ∈ ws, w ≠ []) →
      wordRuns (ws.foldl (fun t w => removeWord w t) x) =
        (wordRuns x).filter (fun r => decide (r ∉ ws)) := by
  intro ws
  induction ws with
  | nil =>
    intro x _
    simp
  | cons w ws ih =>
    intro x hne
    rw [List.foldl_cons]
    rw [ih (removeWord w x) (fun v hv => hne v (List.mem_cons_of_mem w hv))]
    rw [show removeWord w x = removeWordAux w [] x from rfl]
    rw [removeWord_runs w (hne w (List.mem_cons_self w ws)) x [] (by simp)]
    rw [show wordRunsAux ([] : Str) x = wordRuns x from rfl]
    rw [List.filter_filter]
    apply List.filter_congr
    intro r _
    rw [Bool.eq_iff_iff]
    simp only [Bool.and_eq_true, decide_eq_true_eq, List.mem_cons]
    tauto

theorem foldRemove_id :
    ∀ (ws : List Str) (x : Str), (∀ w ∈ ws, w ≠ []) →
      (∀ r ∈ wordRuns x, r ∉ ws) →
      ws.foldl (fun t w => removeWord w t) x = x := by
  intro ws
  induction ws with
  | nil => intro x _ _; rfl
  | cons w ws ih =>
    intro x hne hr
    rw [List.foldl_cons]
    have h1 : removeWord w x = x := by
      rw [show removeWord w x = removeWordAux w [] x from rfl]
      rw [removeWord_id w (hne w (List.mem_cons_self w ws)) x []
        (fun r hrr => fun heq => (hr r hrr) (heq ▸ List.mem_cons_self w ws))]
      rfl
    rw [h1]
    refine ih x (fun v hv => hne v (List.mem_cons_of_mem w hv)) ?_
    intro r hrr hmem
    exact (hr r hrr) (List.mem_cons_of_mem w hmem)

theorem foldRemove_mem :
    ∀ (ws : List Str) (x : Str) (c : Char),
      c ∈ ws.foldl (fun t w => removeWord w t) x → c = ' ' ∨ c ∈ x := by
  intro ws
  induction ws with
  | nil => intro x c hc; exact Or.inr hc
  | cons w ws ih =>
    intro x c hc
    rw [List.foldl_cons] at hc
    rcases ih (removeWord w x) c hc with h1 | h2
    · exact Or.inl h1
    · rcases removeWordAux_mem w x [] c h2 with h3 | h4 | h5
      · exact Or.inl h3
      · simp at h4
      · exact Or.inr h5

/-! ### The cleaning pipeline: invariants and idempotence -/

theorem removeStopWords_runs (x : Str) :
    wordRuns (removeStopWords x) =
      (wordRuns x).filter (fun r => decide (r ∉ STRIP_WORDS)) :=
  foldRemove_runs STRIP_WORDS x (by decide)

theorem removeStopWords_id (x : Str) (h : ∀ r ∈ wordRuns x, r ∉ STRIP_WORDS) :
    removeStopWords x = x :=
  foldRemove_id STRIP_WORDS x (by decide) h

theorem removeStopWords_mem (x : Str) (c : Char) (hc : c ∈ removeStopWords x) :
    c = ' ' ∨ c ∈ x :=
  foldRemove_mem STRIP_WORDS x c hc

theorem runs_map_lower (s : Str) :
    wordRuns (lowerStr s) = (wordRuns s).map lowerStr := by
  have h2 := lowerStr_runs s []
  rw [show lowerStr ([] : Str) = [] from rfl] at h2
  exact h2

theorem cleanMain_wordOrSpace (s : Str) : WordOrSpace (cleanMain s) := by
  intro c hc
  rw [cleanMain] at hc
  have h1 := stripChars_mem _ c hc
  rcases collapseAux_mem _ CState.norm c h1 with h2 | h2 | h2
  · subst h2; exact Or.inr rfl
  · simp [pendingCS] at h2
  · rcases removeStopWords_mem _ c h2 with h3 | h3
    · subst h3; exact Or.inr rfl
    · exact lowerStr_wordOrSpace _ (punctSub_wordOrSpace s) c h3

theorem cleanMain_allLower (s : Str) : AllLower (cleanMain s) := by
  intro c hc
  rw [cleanMain] at hc
  have h1 := stripChars_mem _ c hc
  rcases collapseAux_mem _ CState.norm c h1 with h2 | h2 | h2
  · subst h2; exact lowerChar_space
  · simp [pendingCS] at h2
  · rcases removeStopWords_mem _ c h2 with h3 | h3
    · subst h3; exact lowerChar_space
    · exact lowerStr_allLower _ c h3

theorem cleanMain_noDouble (s : Str) : NoDoubleWs (cleanMain s) :=
  stripChars_noDouble _ (collapseSpaces_noDouble _)

theorem cleanMain_noEdge (s : Str) : NoEdgeWs (cleanMain s) :=
  stripChars_noEdge _

theorem cleanMain_runs (s : Str) :
    wordRuns (cleanMain s) =
      ((wordRuns s).map lowerStr).filter (fun r => decide (r ∉ STRIP_WORDS)) := by
  rw [cleanMain, stripChars_runs, collapseSpaces_runs, removeStopWords_runs]
  rw [runs_map_lower, punctSub_runs]

theorem cleanFallback_allLower (s : Str) : AllLower (cleanFallback s) := by
  intro c hc
  rw [cleanFallback] at hc
  have h1 := stripChars_mem _ c hc
  rcases collapseAux_mem _ CState.norm c h1 with h2 | h2 | h2
  · subst h2; exact lowerChar_space
  · simp [pendingCS] at h2
  · exact lowerStr_allLower s c h2

theorem cleanFallback_noDouble (s : Str) : NoDoubleWs (cleanFallback s) :=
  stripChars_noDouble _ (collapseSpaces_noDouble _)

theorem cleanFallback_noEdge (s : Str) : NoEdgeWs (cleanFallback s) :=
  stripChars_noEdge _

theorem cleanFallback_runs (s : Str) :
    wordRuns (cleanFallback s) = (wordRuns s).map lowerStr := by
  rw [cleanFallback, stripChars_runs, collapseSpaces_runs, runs_map_lower]

theorem cleanMain_not_strip (s : Str) :
    ∀ r ∈ wordRuns (cleanMain s), r ∉ STRIP_WORDS := by
  intro r hr
  rw [cleanMain_runs] at hr
  have h1 := (List.mem_filter.mp hr).2
  simpa using h1

theorem clean_of_invariants (O : Str)
    (hws : WordOrSpace O) (hal : AllLower O) (hnd : NoDoubleWs O)
    (hne : NoEdgeWs O) (hruns : ∀ r ∈ wordRuns O, r ∉ STRIP_WORDS)
    (hnil : O ≠ []) : clean_name O = O := by
  have hmain : cleanMain O = O := by
    rw [cleanMain, punctSub_id O hws hnd, lowerStr_of_allLower O hal,
      removeStopWords_id O hruns, collapseSpaces_id O hnd, stripChars_id O hne]
  rw [clean_name, hmain, if_neg hnil]

theorem cleanMain_empty_runs (s : Str) (h : cleanMain s = []) :
    ∀ r ∈ wordRuns s, lowerStr r ∈ STRIP_WORDS := by
  intro r hr
  have h1 : wordRuns (cleanMain s) = [] := by rw [h]; rfl
  rw [cleanMain_runs, List.filter_eq_nil_iff] at h1
  have h2 := h1 (lowerStr r) (List.mem_map_of_mem lowerStr hr)
  simpa using h2

theorem cleanMain_empty_of_runs (O : Str) (hal : AllLower O)
    (hruns : ∀ r ∈ wordRuns O, r ∈ STRIP_WORDS) : cleanMain O = [] := by
  have hZruns : wordRuns (removeStopWords (lowerStr (punctSub O))) = [] := by
    rw [removeStopWords_runs, List.filter_eq_nil_iff]
    intro r hr
    rw [runs_map_lower, punctSub_runs] at hr
    obtain ⟨r0, hr0, rfl⟩ := List.mem_map.mp hr
    have hfix : lowerStr r0 = r0 := by
      apply lowerStr_of_allLower
      intro c hc
      rcases runs_chars O [] r0 hr0 c hc with h3 | h3
      · simp at h3
      · exact hal c h3
    rw [hfix]
    simp [hruns r0 hr0]
  obtain ⟨_, hnw⟩ := runs_nil _ [] hZruns
  have hZws : WordOrSpace (removeStopWords (lowerStr (punctSub O))) := by
    intro c hc
    rcases removeStopWords_mem _ c hc with h1 | h1
    · subst h1; exact Or.inr rfl
    · exact lowerStr_wordOrSpace _ (punctSub_wordOrSpace O) c h1
  have hZsp : ∀ c ∈ removeStopWords (lowerStr (punctSub O)), isSpc c = true := by
    intro c hc
    rcases hZws c hc with h1 | h1
    · rw [hnw c hc] at h1
      exact absurd h1 (by simp)
    · subst h1; exact isSpc_space
  rw [cleanMain]
  apply stripChars_all_spc
  intro c hc
  rcases collapseAux_mem _ CState.norm c hc with h1 | h1 | h1
  · subst h1; exact isSpc_space
  · simp [pendingCS] at h1
  · exact hZsp c h1

/-- C6: `clean_name` is idempotent: cleaning an already-cleaned name
changes nothing, on both the main path and the fallback path. -/
theorem clean_name_idem (s : Str) : clean_name (clean_name s) = clean_name s := by
  by_cases h : cleanMain s = []
  · have hO : clean_name s = cleanFallback s := by rw [clean_name, if_pos h]
    rw [hO]
    have hal := cleanFallback_allLower s
    have hnd := cleanFallback_noDouble s
    have hne := cleanFallback_noEdge s
    have hruns : ∀ r ∈ wordRuns (cleanFallback s), r ∈ STRIP_WORDS := by
      intro r hr
      rw [cleanFallback_runs] at hr
      obtain ⟨r0, hr0, rfl⟩ := List.mem_map.mp hr
      exact cleanMain_empty_runs s h r0 hr0
    have hmainO : cleanMain (cleanFallback s) = [] :=
      cleanMain_empty_of_runs _ hal hruns
    rw [clean_name, if_pos hmainO]
    rw [cleanFallback, lowerStr_of_allLower _ hal, collapseSpaces_id _ hnd,
      stripChars_id _ hne]
  · have hO : clean_name s = cleanMain s := by rw [clean_name, if_neg h]
    rw [hO]
    exact clean_of_invariants (cleanMain s) (cleanMain_wordOrSpace s)
      (cleanMain_allLower s) (cleanMain_noDouble s) (cleanMain_noEdge s)
      (cleanMain_not_strip s) h

/-- C5: a name containing at least one alphanumeric character cleans to a
non-empty string; in particular the fallback path keeps stop-word-only
names non-empty. -/
theorem clean_name_nonempty (s : Str) (h : ∃ c ∈ s, isAlnum c = true) :
    clean_name s ≠ [] := by
  rw [clean_name]
  by_cases hm : cleanMain s = []
  · rw [if_pos hm]
    obtain ⟨c, hc, hal⟩ := h
    have h1 : lowerChar c ∈ lowerStr s := List.mem_map_of_mem lowerChar hc
    have h2 : isAlnum (lowerChar c) = true := by rw [isAlnum_lowerChar]; exact hal
    have h3 : isSpc (lowerChar c) = false := not_isSpc_of_isAlnum h2
    have h4 : lowerChar c ∈ collapseSpaces (lowerStr s) :=
      collapseAux_mem_of_nonspc _ CState.norm _ h1 h3
    exact stripChars_ne_nil _ _ h4 h3
  · rw [if_neg hm]
    exact hm

theorem clean_name_nonempty_witness :
    (∃ c ∈ "The The".toList, isAlnum c = true) ∧
    clean_name "The The".toList ≠ [] ∧ cleanMain "The The".toList = [] :=
  ⟨by decide, clean_name_nonempty "The The".toList (by decide), by decide⟩

/-- C3 (counterexample): on `"the-the"` the main path empties, and the
code's fallback returns the original lowered string `"the-the"` with its
punctuation intact, not the spec's steps-1-and-3 recomputation
`"the the"`; so the fallback output can contain punctuation. -/
theorem clean_name_fallback_counterexample :
    cleanMain "the-the".toList = [] ∧
    clean_name "the-the".toList = "the-the".toList ∧
    cleanFallbackSpec "the-the".toList = "the the".toList ∧
    clean_name "the-the".toList ≠ cleanFallbackSpec "the-the".toList ∧
    '-' ∈ clean_name "the-the".toList ∧ isAlnum '-' = false ∧
    isSpc '-' = false :=
  ⟨by decide, by decide, by decide, by decide, by decide, by decide, by decide⟩

/-- C3 (amended): when steps 1-3 yield the empty string, `clean_name`
returns the original input lowered with whitespace runs of length at
least two collapsed and the ends stripped — without re-applying the
punctuation substitution — and that fallback output is lowercase, has no
two adjacent whitespace characters and no leading or trailing
whitespace (but may contain punctuation). -/
theorem clean_name_fallback_eq (s : Str) (h : cleanMain s = []) :
    clean_name s = stripChars (collapseSpaces (lowerStr s)) ∧
    AllLower (clean_name s) ∧ NoDoubleWs (clean_name s) ∧
    NoEdgeWs (clean_name s) := by
  have h1 : clean_name s = cleanFallback s := by rw [clean_name, if_pos h]
  refine ⟨h1, ?_, ?_, ?_⟩
  · rw [h1]; exact cleanFallback_allLower s
  · rw [h1]; exact cleanFallback_noDouble s
  · rw [h1]; exact cleanFallback_noEdge s

theorem clean_name_fallback_eq_witness :
    cleanMain "The And".toList = [] ∧
    (clean_name "The And".toList =
        stripChars (collapseSpaces (lowerStr "The And".toList)) ∧
      AllLower (clean_name "The And".toList) ∧
      NoDoubleWs (clean_name "The And".toList) ∧
      NoEdgeWs (clean_name "The And".toList)) :=
  ⟨by decide, clean_name_fallback_eq "The And".toList (by decide)⟩

/-- C4 (counterexample): the first step of `clean_name` does not replace
the underscore — `\W` leaves `_` in place — so the intermediate string
for `"A_b!"` is `"a_b "`, which contains a character that is neither a
letter, a digit, nor a space. -/
theorem punct_step_counterexample :
    lowerStr (punctSub "A_b!".toList) = "a_b ".toList ∧
    '_' ∈ lowerStr (punctSub "A_b!".toList) ∧
    isAlnum '_' = false ∧ ('_' = ' ' → False) :=
  ⟨by decide, by decide, by decide, by decide⟩

/-- C4 (amended): the first step of `clean_name` replaces every maximal
run of characters that are neither alphanumeric nor underscore by a
single space and lowercases, so the intermediate form consists only of
lowercase-fixed word characters (letters, digits, underscore) and
spaces, with no two adjacent whitespace characters. -/
theorem punct_step_chars (s : Str) :
    WordOrSpace (lowerStr (punctSub s)) ∧
    AllLower (lowerStr (punctSub s)) ∧
    NoDoubleWs (lowerStr (punctSub s)) :=
  ⟨lowerStr_wordOrSpace _ (punctSub_wordOrSpace s),
   lowerStr_allLower _,
   lowerStr_noDouble _ (punctSub_noDouble s)⟩

end PinballMap
